import Mathlib

/-!
A verification development for the `undr` dataset installer (Rust crate).
Each definition below is a shallow embedding of a function or data type of
the Rust sources (`src/rust/src/...`); strings are modelled as `List Char`
or `String`, machine integers as `Nat`/`Int` (the quantities involved are
sizes and byte counters that cannot overflow `u64`/`i64` on real inputs),
and SHA3-224 is abstracted as an arbitrary digest function of the byte
stream, since no claim depends on the internals of the hash.
-/

namespace Undr

/-! ## Index model (`json_index.rs`): compressions, resources,
    `Resource::best_compression` -/

/-- Embedding of `json_index::Compression`: either the identity encoding
(the raw file is served directly, carrying only a suffix) or Brotli
(own transmitted size, digest and suffix).  Digests are modelled as byte
lists. -/
inductive Compression where
  | noneCompression (suffix : String)
  | brotli (size : Nat) (hash : List Nat) (suffix : String)
deriving DecidableEq, Repr

/-- Embedding of `json_index::Compressions`: a non-empty list, `first`
plus `rest`. -/
structure Compressions where
  first : Compression
  rest : List Compression
deriving DecidableEq, Repr

/-- Embedding of `json_index::Resource`.  `size` and `hash` describe the
raw (decompressed) payload. -/
structure Resource where
  name : String
  size : Nat
  hash : List Nat
  compressions : Compressions
  doi : Option String
deriving DecidableEq, Repr

/-- The `size` field of `Resource::compression_properties_from`: the
transmitted size of a compression (`resource.size` for the `none`
compression, the stored size for Brotli). -/
def compressionSize (r : Resource) : Compression → Nat
  | .noneCompression _ => r.size
  | .brotli size _ _ => size

/-- The fold step of `Resource::best_compression`: replace the
accumulator only on a strictly smaller transmitted size. -/
def bestStep (r : Resource) (accumulator compression : Compression) : Compression :=
  if compressionSize r compression < compressionSize r accumulator then
    compression
  else
    accumulator

/-- Embedding of `Resource::best_compression` (`json_index.rs`): fold
over `rest` starting from `first`. -/
def bestCompression (r : Resource) : Compression :=
  r.compressions.rest.foldl (bestStep r) r.compressions.first

/-- The compressions of a resource in listed order: `first, rest[0], ...`. -/
def compressionList (r : Resource) : List Compression :=
  r.compressions.first :: r.compressions.rest

lemma bestFold_spec (r : Resource) : ∀ (rest : List Compression) (acc b : Compression),
    List.foldl (bestStep r) acc rest = b →
    (b = acc ∧ ∀ c ∈ rest, compressionSize r acc ≤ compressionSize r c)
    ∨ (∃ l₁ l₂, rest = l₁ ++ b :: l₂
        ∧ compressionSize r b < compressionSize r acc
        ∧ (∀ c ∈ l₁, compressionSize r b < compressionSize r c)
        ∧ (∀ c ∈ l₂, compressionSize r b ≤ compressionSize r c)) := by
  intro rest
  induction rest with
  | nil =>
    intro acc b hb
    left
    exact ⟨hb.symm, by simp⟩
  | cons c rest ih =>
    intro acc b hb
    rw [List.foldl_cons] at hb
    by_cases hlt : compressionSize r c < compressionSize r acc
    · have hstep : bestStep r acc c = c := by simp [bestStep, hlt]
      rw [hstep] at hb
      rcases ih c b hb with ⟨heq, hall⟩ | ⟨l₁, l₂, hdec, hlt2, hl₁, hl₂⟩
      · right
        subst heq
        exact ⟨[], rest, by simp, hlt, by simp, hall⟩
      · right
        refine ⟨c :: l₁, l₂, by rw [hdec]; rfl, lt_trans hlt2 hlt, ?_, hl₂⟩
        intro x hx
        rcases List.mem_cons.mp hx with rfl | hx
        · exact hlt2
        · exact hl₁ x hx
    · have hstep : bestStep r acc c = acc := by simp [bestStep, hlt]
      rw [hstep] at hb
      push_neg at hlt
      rcases ih acc b hb with ⟨heq, hall⟩ | ⟨l₁, l₂, hdec, hlt2, hl₁, hl₂⟩
      · left
        subst heq
        refine ⟨rfl, ?_⟩
        intro x hx
        rcases List.mem_cons.mp hx with rfl | hx
        · exact hlt
        · exact hall x hx
      · right
        refine ⟨c :: l₁, l₂, by rw [hdec]; rfl, hlt2, ?_, hl₂⟩
        intro x hx
        rcases List.mem_cons.mp hx with rfl | hx
        · exact lt_of_lt_of_le hlt2 hlt
        · exact hl₁ x hx

/-- C5: `Resource::best_compression` returns a compression from the list
`first :: rest` whose transmitted size is less than or equal to the
transmitted size of every listed compression, and the earliest listed
compression among those of minimal size (every compression listed
strictly before the returned one has a strictly larger size). -/
theorem best_compression_spec (r : Resource) :
    bestCompression r ∈ compressionList r
    ∧ (∀ c ∈ compressionList r,
        compressionSize r (bestCompression r) ≤ compressionSize r c)
    ∧ ∃ l₁ l₂, compressionList r = l₁ ++ bestCompression r :: l₂
        ∧ ∀ c ∈ l₁, compressionSize r (bestCompression r) < compressionSize r c := by
  rcases bestFold_spec r r.compressions.rest r.compressions.first (bestCompression r) rfl with
    ⟨heq, hall⟩ | ⟨l₁, l₂, hdec, hlt, hl₁, hl₂⟩
  · refine ⟨?_, ?_, [], r.compressions.rest, ?_, by simp⟩
    · simp [compressionList, heq]
    · intro c hc
      rcases List.mem_cons.mp hc with rfl | hc
      · simp [heq]
      · rw [heq]; exact hall c hc
    · simp [compressionList, heq]
  · have hmin : ∀ c ∈ compressionList r,
        compressionSize r (bestCompression r) ≤ compressionSize r c := by
      intro c hc
      rcases List.mem_cons.mp hc with rfl | hc
      · exact le_of_lt hlt
      · rw [hdec] at hc
        rcases List.mem_append.mp hc with hc | hc
        · exact le_of_lt (hl₁ c hc)
        · rcases List.mem_cons.mp hc with rfl | hc
          · exact le_refl _
          · exact hl₂ c hc
    refine ⟨?_, hmin, r.compressions.first :: l₁, l₂, ?_, ?_⟩
    · have : bestCompression r ∈ r.compressions.rest := by
        rw [hdec]
        exact List.mem_append.mpr (Or.inr (List.mem_cons_self _ _))
      exact List.mem_cons.mpr (Or.inr this)
    · rw [compressionList, hdec]; rfl
    · intro x hx
      rcases List.mem_cons.mp hx with rfl | hx
      · exact hlt
      · exact hl₁ x hx

/-! ## Hash serialization (`types.rs`): `Hash::deserialize`,
    `Hash::serialize` -/

/-- The character class of the regex `^[a-f0-9]{56}$` used by
`Hash::deserialize` (`types.rs`): the sixteen lowercase hexadecimal
digits. -/
def lowerHexDigits : List Char :=
  ['0', '1', '2', '3', '4'] ++ ['5', '6', '7', '8', '9'] ++ ['a', 'b', 'c'] ++ ['d', 'e', 'f']

/-- A character matches the class `[a-f0-9]`. -/
def isHexLower (c : Char) : Bool :=
  lowerHexDigits.contains c

/-- Value of a hexadecimal digit, as computed by Rust's
`u8::from_str_radix` (via `char::to_digit`): `'0'..'9'` map to 0..9 and
`'a'..'f'` map to 10..15. -/
def hexVal (c : Char) : Nat :=
  if c ≤ '9' then c.toNat - 48 else c.toNat - 87

/-- `Hash::deserialize` byte assembly: `chunks(2)` over the characters,
each pair parsed in base 16 (`16 * high + low`). -/
def bytesOfHex : List Char → List Nat
  | c₁ :: c₂ :: rest => (16 * hexVal c₁ + hexVal c₂) :: bytesOfHex rest
  | [c] => [hexVal c]
  | [] => []

/-- One byte rendered by `format "02x"` in `Hash::serialize`
(bytes are below 256 by construction). -/
def hexByteChars (b : Nat) : List Char :=
  [lowerHexDigits.getD (b / 16) '0', lowerHexDigits.getD (b % 16) '0']

/-- Embedding of `Hash::serialize` (`types.rs`): every byte as two
lowercase hexadecimal characters, concatenated. -/
def hashSerialize (bytes : List Nat) : List Char :=
  (bytes.map hexByteChars).flatten

/-- Embedding of `Hash::deserialize` (`types.rs`): the string must match
`^[a-f0-9]{56}$` (exactly 56 lowercase hexadecimal characters), then the
28 bytes are parsed pairwise; any other string is rejected. -/
def hashDeserialize (s : List Char) : Option (List Nat) :=
  if s.length = 56 ∧ s.all isHexLower then some (bytesOfHex s) else none

lemma hexDigit_inv (c : Char) (h : isHexLower c = true) :
    hexVal c < 16 ∧ lowerHexDigits.getD (hexVal c) '0' = c := by
  have hmem : c ∈ lowerHexDigits := by
    simpa [isHexLower] using h
  fin_cases hmem <;> exact ⟨by decide, by decide⟩

lemma serialize_bytesOfHex : ∀ s : List Char,
    s.all isHexLower = true → s.length % 2 = 0 →
    hashSerialize (bytesOfHex s) = s := by
  intro s
  induction s using bytesOfHex.induct with
  | case1 c₁ c₂ rest ih =>
    intro hall hlen
    simp only [List.all_cons, Bool.and_eq_true] at hall
    obtain ⟨h₁, h₂, hrest⟩ := hall
    have hv₁ := hexDigit_inv c₁ h₁
    have hv₂ := hexDigit_inv c₂ h₂
    have hdiv : (16 * hexVal c₁ + hexVal c₂) / 16 = hexVal c₁ := by omega
    have hmod : (16 * hexVal c₁ + hexVal c₂) % 16 = hexVal c₂ := by omega
    have hlen2 : rest.length % 2 = 0 := by
      simp only [List.length_cons] at hlen
      omega
    simp only [bytesOfHex, hashSerialize, List.map_cons, List.flatten_cons, hexByteChars,
      hdiv, hmod, hv₁.2, hv₂.2]
    simpa [hashSerialize] using ih hrest hlen2
  | case2 c =>
    intro _ hlen
    simp at hlen
  | case3 =>
    intro _ _
    rfl

/-- C9: deserializing any string of exactly 56 lowercase hexadecimal
characters as a `Hash` succeeds and serializing the result yields the
original string; deserializing any other string fails. -/
theorem hash_serde_roundtrip (s : List Char) :
    (s.length = 56 ∧ s.all isHexLower = true →
      ∃ h, hashDeserialize s = some h ∧ hashSerialize h = s)
    ∧ (¬(s.length = 56 ∧ s.all isHexLower = true) → hashDeserialize s = none) := by
  constructor
  · intro h
    refine ⟨bytesOfHex s, ?_, ?_⟩
    · simp [hashDeserialize, h.1, h.2]
    · exact serialize_bytesOfHex s h.2 (by rw [h.1])
  · intro h
    simp only [hashDeserialize, ite_eq_right_iff]
    intro hcond
    exact absurd hcond h

/-- C9 witness: a concrete 56-character lowercase hexadecimal string
round-trips. -/
theorem hash_serde_roundtrip_witness :
    ∃ h, hashDeserialize
        ("10ada4f8679a20c4d4f8fea56e8552e667f01a405611ca8c0463546c".toList) = some h
      ∧ hashSerialize h =
        ("10ada4f8679a20c4d4f8fea56e8552e667f01a405611ca8c0463546c".toList) :=
  (hash_serde_roundtrip _).1 (by decide)

/-! ## Citation prettifier (`bibtex.rs::prettify`) -/

/-- Rust's `char::is_ascii_whitespace`: space (20), horizontal tab
(09), line feed (0A), form feed (0C), carriage return (0D). -/
def isAsciiWhitespace (c : Char) : Bool :=
  c == '\x20' || c == '\x09' || c == '\x0A' || c == '\x0C' || c == '\x0D'

/-- Number of indent spaces pushed when a line starts: `4 * depth`, or
`4 * (depth - 1)` when the first character of the line is a closing
brace; a negative product yields an empty range in Rust, hence zero
spaces (`Int.toNat`). -/
def indentWidth (c : Char) (depth : Int) : Nat :=
  (4 * (if c = '}' then depth - 1 else depth)).toNat

/-- The loop state of `prettify`: the `new_line` flag, the brace
nesting `depth`, and the output accumulated so far. -/
structure PrettifyState where
  newLine : Bool
  depth : Int
  out : List Char
deriving DecidableEq, Repr

/-- One iteration of the character loop of `bibtex.rs::prettify`:
indent on the first non-whitespace character of a line, then track
braces, newlines and whitespace exactly as the Rust `match` does. -/
def prettifyStep (s : PrettifyState) (c : Char) : PrettifyState :=
  let fire := s.newLine && !(isAsciiWhitespace c)
  let out := if fire then s.out ++ List.replicate (indentWidth c s.depth) ' ' else s.out
  let nl := if fire then false else s.newLine
  if c = '{' then ⟨nl, s.depth + 1, out ++ ['{']⟩
  else if c = '}' then ⟨nl, s.depth - 1, out ++ ['}']⟩
  else if c = '\n' then ⟨true, s.depth, out ++ ['\n']⟩
  else if isAsciiWhitespace c then ⟨nl, s.depth, if nl then out else out ++ [c]⟩
  else ⟨nl, s.depth, out ++ [c]⟩

/-- Embedding of `bibtex.rs::prettify`: run the loop from
`new_line = true`, `depth = 0`, then append a final newline when the
output does not already end with one. -/
def prettify (s : List Char) : List Char :=
  let r := List.foldl prettifyStep ⟨true, 0, []⟩ s
  if r.out.getLast? = some '\n' then r.out else r.out ++ ['\n']

lemma prettifyStep_out_append (nl : Bool) (d : Int) (out : List Char) (c : Char) :
    prettifyStep ⟨nl, d, out⟩ c =
      ⟨(prettifyStep ⟨nl, d, []⟩ c).newLine, (prettifyStep ⟨nl, d, []⟩ c).depth,
        out ++ (prettifyStep ⟨nl, d, []⟩ c).out⟩ := by
  simp only [prettifyStep]
  by_cases hf : (nl && !(isAsciiWhitespace c)) = true <;>
    simp only [hf, if_true, if_false, Bool.false_eq_true] <;>
      split_ifs <;> simp_all

lemma run_out_append : ∀ (cs : List Char) (nl : Bool) (d : Int) (out : List Char),
    List.foldl prettifyStep ⟨nl, d, out⟩ cs =
      ⟨(List.foldl prettifyStep ⟨nl, d, []⟩ cs).newLine,
       (List.foldl prettifyStep ⟨nl, d, []⟩ cs).depth,
       out ++ (List.foldl prettifyStep ⟨nl, d, []⟩ cs).out⟩ := by
  intro cs
  induction cs with
  | nil => intro nl d out; simp
  | cons c cs ih =>
    intro nl d out
    rw [List.foldl_cons, List.foldl_cons, prettifyStep_out_append nl d out c]
    obtain ⟨nl₁, d₁, e⟩ : PrettifyState := prettifyStep ⟨nl, d, []⟩ c
    rw [ih nl₁ d₁ (out ++ e), ih nl₁ d₁ e]
    simp

lemma skip_spaces : ∀ (k : Nat) (d : Int) (out : List Char),
    List.foldl prettifyStep ⟨true, d, out⟩ (List.replicate k ' ') = ⟨true, d, out⟩ := by
  intro k
  induction k with
  | zero => intro d out; rfl
  | succ k ih =>
    intro d out
    rw [List.replicate_succ, List.foldl_cons]
    have hstep : prettifyStep ⟨true, d, out⟩ ' ' = ⟨true, d, out⟩ := by
      simp [prettifyStep, isAsciiWhitespace]
    rw [hstep]
    exact ih d out

lemma replay_char (nl : Bool) (d : Int) (c : Char) :
    List.foldl prettifyStep ⟨nl, d, []⟩ (prettifyStep ⟨nl, d, []⟩ c).out =
      prettifyStep ⟨nl, d, []⟩ c := by
  by_cases hws : isAsciiWhitespace c = true
  · by_cases hnl : c = '\n'
    · subst hnl
      have he : prettifyStep ⟨nl, d, []⟩ '\n' = ⟨true, d, ['\n']⟩ := by
        simp [prettifyStep, isAsciiWhitespace]
      rw [he]
      show List.foldl prettifyStep ⟨nl, d, []⟩ ['\n'] = ⟨true, d, ['\n']⟩
      rw [List.foldl_cons, List.foldl_nil]
      exact he
    · have hbrace₁ : c ≠ '{' := by rintro rfl; simp [isAsciiWhitespace] at hws
      have hbrace₂ : c ≠ '}' := by rintro rfl; simp [isAsciiWhitespace] at hws
      cases nl with
      | true =>
        have he : prettifyStep ⟨true, d, []⟩ c = ⟨true, d, []⟩ := by
          simp [prettifyStep, hws, hbrace₁, hbrace₂, hnl]
        rw [he]
        show List.foldl prettifyStep ⟨true, d, []⟩ [] = ⟨true, d, []⟩
        rfl
      | false =>
        have he : prettifyStep ⟨false, d, []⟩ c = ⟨false, d, [c]⟩ := by
          simp [prettifyStep, hws, hbrace₁, hbrace₂, hnl]
        rw [he]
        show List.foldl prettifyStep ⟨false, d, []⟩ [c] = ⟨false, d, [c]⟩
        rw [List.foldl_cons, List.foldl_nil]
        exact he
  · have hnl : c ≠ '\n' := by rintro rfl; simp [isAsciiWhitespace] at hws
    have hdepth : ∀ d₀ : Int, ∀ nl₀ : Bool, prettifyStep ⟨nl₀, d₀, []⟩ c =
        ⟨false ||
            (!nl₀ && false), (if c = '{' then d₀ + 1 else if c = '}' then d₀ - 1 else d₀),
          (if nl₀ then List.replicate (indentWidth c d₀) ' ' else []) ++ [c]⟩ := by
      intro d₀ nl₀
      cases nl₀ <;> simp only [prettifyStep, hws, Bool.not_false, Bool.and_true,
        Bool.true_and, Bool.false_and, if_true, if_false, Bool.false_eq_true,
        Bool.false_or, Bool.and_false, Bool.not_true] <;> split_ifs <;> simp_all
    cases nl with
    | true =>
      rw [hdepth d true]
      show List.foldl prettifyStep ⟨true, d, []⟩
          (List.replicate (indentWidth c d) ' ' ++ [c]) = _
      rw [List.foldl_append, skip_spaces, List.foldl_cons, List.foldl_nil]
      rw [prettifyStep_out_append, hdepth d true]
      simp
    | false =>
      rw [hdepth d false]
      show List.foldl prettifyStep ⟨false, d, []⟩ [c] = _
      rw [List.foldl_cons, List.foldl_nil]
      rw [hdepth d false]

lemma replay_run : ∀ (cs : List Char) (nl : Bool) (d : Int),
    List.foldl prettifyStep ⟨nl, d, []⟩ (List.foldl prettifyStep ⟨nl, d, []⟩ cs).out =
      List.foldl prettifyStep ⟨nl, d, []⟩ cs := by
  intro cs
  induction cs with
  | nil => intro nl d; rfl
  | cons c cs ih =>
    intro nl d
    rcases hE : prettifyStep ⟨nl, d, []⟩ c with ⟨nl₁, d₁, e⟩
    rcases hO : List.foldl prettifyStep ⟨nl₁, d₁, []⟩ cs with ⟨nl₂, d₂, o⟩
    have hA : List.foldl prettifyStep ⟨nl, d, []⟩ (c :: cs) = ⟨nl₂, d₂, e ++ o⟩ := by
      rw [List.foldl_cons, hE, run_out_append cs nl₁ d₁ e, hO]
    have hB : List.foldl prettifyStep ⟨nl, d, []⟩ e = ⟨nl₁, d₁, e⟩ := by
      have hc := replay_char nl d c
      rw [hE] at hc
      exact hc
    have hD : List.foldl prettifyStep ⟨nl₁, d₁, []⟩ o = ⟨nl₂, d₂, o⟩ := by
      have := ih nl₁ d₁
      rw [hO] at this
      exact this
    have hC : List.foldl prettifyStep ⟨nl₁, d₁, e⟩ o = ⟨nl₂, d₂, e ++ o⟩ := by
      rw [run_out_append o nl₁ d₁ e, hD]
    rw [hA]
    show List.foldl prettifyStep ⟨nl, d, []⟩ (e ++ o) = ⟨nl₂, d₂, e ++ o⟩
    rw [List.foldl_append, hB, hC]

/-- C10: the citation prettifier is idempotent: prettifying an already
prettified string returns it unchanged. -/
theorem prettify_idempotent (s : List Char) : prettify (prettify s) = prettify s := by
  unfold prettify
  simp only
  by_cases hend : (List.foldl prettifyStep ⟨true, 0, []⟩ s).out.getLast? = some '\n'
  · rw [if_pos hend, replay_run s true 0, if_pos hend]
  · rw [if_neg hend]
    rw [List.foldl_append, replay_run s true 0]
    obtain ⟨nl₂, d₂, o⟩ : PrettifyState := List.foldl prettifyStep ⟨true, 0, []⟩ s
    simp only at hend ⊢
    have hstep : prettifyStep ⟨nl₂, d₂, o⟩ '\n' = ⟨true, d₂, o ++ ['\n']⟩ := by
      simp [prettifyStep, isAsciiWhitespace]
    rw [List.foldl_cons, List.foldl_nil, hstep]
    simp only
    rw [if_pos (by simp)]

/-! ## Citation writer header (`bibtex.rs::write`) -/

/-- Rust's `Vec::join(", ")` over path-id strings. -/
def joinComma : List String → String
  | [] => ""
  | [x] => x
  | x :: rest => x ++ ", " ++ joinComma rest

/-- The header comment emitted by `bibtex.rs::write` for one DOI entry,
from its (sorted) path ids: all ids comma-separated when fewer than 6,
otherwise the first three, an ellipsis with the omitted count
(`len - 4`), and the last id. -/
def bibtexHeader (pathIds : List String) : String :=
  if pathIds.length < 6 then
    "% " ++ joinComma pathIds ++ "\n"
  else
    "% " ++ joinComma (pathIds.take 3) ++ ", ... (" ++
      toString (pathIds.length - 4) ++ " more), " ++ pathIds.getLastD "" ++ "\n"

/-- C7: for every DOI entry with sorted path ids, the header lists all
ids comma-separated after a percent sign when there are fewer than six,
and otherwise exactly the first three, then the ellipsis with
`len - 4` more, then the last id. -/
theorem bibtex_header_spec (ids : List String) :
    (ids.length < 6 → bibtexHeader ids = "% " ++ joinComma ids ++ "\n")
    ∧ (∀ p₁ p₂ p₃ rest, ids = p₁ :: p₂ :: p₃ :: rest → 6 ≤ ids.length →
        bibtexHeader ids =
          "% " ++ p₁ ++ ", " ++ p₂ ++ ", " ++ p₃ ++ ", ... (" ++
            toString (ids.length - 4) ++ " more), " ++ ids.getLastD "" ++ "\n") := by
  constructor
  · intro h
    simp [bibtexHeader, h]
  · rintro p₁ p₂ p₃ rest rfl hlen
    rw [bibtexHeader, if_neg (by omega)]
    have htake : (p₁ :: p₂ :: p₃ :: rest).take 3 = [p₁, p₂, p₃] := by simp
    rw [htake]
    simp [joinComma, String.append_assoc]

/-- C7 witness: a 7-element sorted id list produces the truncated
header with `(3 more)`. -/
theorem bibtex_header_spec_witness :
    bibtexHeader ["a", "b", "c", "d", "e", "f", "g"] =
      "% " ++ "a" ++ ", " ++ "b" ++ ", " ++ "c" ++ ", ... (" ++
        toString ((["a", "b", "c", "d", "e", "f", "g"] : List String).length - 4) ++
        " more), " ++ (["a", "b", "c", "d", "e", "f", "g"] : List String).getLastD "" ++ "\n" :=
  (bibtex_header_spec _).2 "a" "b" "c" ["d", "e", "f", "g"] rfl (by decide)

/-! ## URL composition (`remote.rs::Server::url_from_path_id_and_suffix`) -/

/-- The fields of `remote::Server` relevant to URL composition: the
dataset base URL and the bit, computed at construction, recording
whether it ends with a slash. -/
structure Server where
  url : List Char
  urlEndsWithSeparator : Bool
deriving DecidableEq, Repr

/-- `Server::new`: store the URL and whether it ends with a slash. -/
def serverNew (url : List Char) : Server :=
  ⟨url, url.getLast? == some '/'⟩

/-- The characters after the first slash of a path id, mirroring
`char_indices().find(== '/')` followed by slicing at `position + 1`
(`none` when the path id contains no slash). -/
def afterFirstSlash : List Char → Option (List Char)
  | [] => none
  | c :: rest => if c = '/' then some rest else afterFirstSlash rest

/-- Embedding of `Server::url_from_path_id_and_suffix` (`remote.rs`):
when the path id contains a slash, concatenate the base URL, a
separator if the base URL does not end with one, the part of the path
id after its first slash, and the suffix; otherwise return the base
URL alone. -/
def urlFromPathIdAndSuffix (s : Server) (pathId suffix : List Char) : List Char :=
  match afterFirstSlash pathId with
  | some rest =>
      s.url ++ (if s.urlEndsWithSeparator then [] else ['/']) ++ rest ++ suffix
  | none => s.url

/-- Modelled from the spec sentence for comparison: strip the leading
dataset-name segment, append the remainder to the base URL (inserting
a slash when the base does not end with one), and append the
compression suffix — unconditionally, also for a single-segment path
id whose remainder is empty. -/
def urlCompositionSpec (s : Server) (pathId suffix : List Char) : List Char :=
  s.url ++ (if s.urlEndsWithSeparator then [] else ['/']) ++
    ((afterFirstSlash pathId).getD []) ++ suffix

/-- C8 counterexample: for a single-segment path id (just the dataset
name) the code returns the base URL unchanged, without appending the
compression suffix, contradicting the claimed composition. -/
theorem url_composition_counterexample :
    urlFromPathIdAndSuffix (serverNew "https://example.com/ds/".toList)
        "dataset".toList ".br".toList
      ≠ urlCompositionSpec (serverNew "https://example.com/ds/".toList)
        "dataset".toList ".br".toList := by
  decide

/-- C8 amended: for every path id containing a slash, the returned URL
is the claimed composition (base URL, separator when missing, the
remaining segments, then the suffix); for a single-segment path id the
base URL is returned unchanged, with no separator or suffix appended. -/
theorem url_composition_amended (s : Server) (pathId suffix : List Char) :
    ((afterFirstSlash pathId).isSome = true →
      urlFromPathIdAndSuffix s pathId suffix = urlCompositionSpec s pathId suffix)
    ∧ (afterFirstSlash pathId = none →
      urlFromPathIdAndSuffix s pathId suffix = s.url) := by
  constructor
  · intro h
    obtain ⟨rest, hrest⟩ := Option.isSome_iff_exists.mp h
    simp [urlFromPathIdAndSuffix, urlCompositionSpec, hrest]
  · intro h
    simp [urlFromPathIdAndSuffix, h]

/-- C8 amended witness: a two-segment path id composes base URL,
remainder and suffix. -/
theorem url_composition_amended_witness :
    (afterFirstSlash "dataset/file".toList).isSome = true
    ∧ urlFromPathIdAndSuffix (serverNew "https://example.com/ds/".toList)
        "dataset/file".toList ".br".toList
      = urlCompositionSpec (serverNew "https://example.com/ds/".toList)
        "dataset/file".toList ".br".toList :=
  ⟨by decide,
    (url_composition_amended (serverNew "https://example.com/ds/".toList)
      "dataset/file".toList ".br".toList).1 (by decide)⟩

/-! ## Directory scan bookkeeping (`install_directory.rs`) -/

/-- Embedding of `configuration::InstallableMode`. -/
inductive InstallableMode where
  | remote
  | local
  | raw
deriving DecidableEq, Repr

/-- Result of the three `std::fs::metadata` probes for one resource:
the length of the regular file found at the raw path `P`, at the
compressed sibling `P<suffix>`, and at the in-flight download
`P<suffix>.download` (`none` when absent or not a regular file). -/
structure Probe where
  rawLen : Option Nat
  compressedLen : Option Nat
  downloadLen : Option Nat
deriving DecidableEq, Repr

/-- The per-resource counters of `types::DirectoryScanned` (the `index`
value is computed before the resource loop and is not affected by it). -/
structure DirectoryScanned where
  initialDownloadCount : Nat
  initialProcessCount : Nat
  finalCount : Nat
  downloadInitialBytes : Nat
  downloadFinalBytes : Nat
  processInitialBytes : Nat
  processFinalBytes : Nat
  calculateSizeCompressedLocalBytes : Nat
  calculateSizeCompressedRemoteBytes : Nat
  calculateSizeRawLocalBytes : Nat
  calculateSizeRawRemoteBytes : Nat
deriving DecidableEq, Repr

/-- The all-zero record the walker starts from. -/
def emptyScanned : DirectoryScanned := ⟨0, 0, 0, 0, 0, 0, 0, 0, 0, 0, 0⟩

/-- The filesystem-probing tail of the per-resource loop body of
`install_directory` (the `if calculate_size.0 || !force.0` block):
credits local byte counts and initial progress according to which of
`P`, `P<suffix>`, `P<suffix>.download` exists. -/
def scanProbePart (mode : InstallableMode) (cs force : Bool) (size : Nat)
    (probe : Probe) (acc : DirectoryScanned) : DirectoryScanned :=
  if cs ∨ ¬force then
    match probe.rawLen with
    | some len =>
        let acc :=
          if cs then
            let acc := { acc with
              calculateSizeRawLocalBytes := acc.calculateSizeRawLocalBytes + len }
            match probe.compressedLen with
            | some clen => { acc with
                calculateSizeCompressedLocalBytes :=
                  acc.calculateSizeCompressedLocalBytes + clen }
            | none =>
                match probe.downloadLen with
                | some dlen => { acc with
                    calculateSizeCompressedLocalBytes :=
                      acc.calculateSizeCompressedLocalBytes + dlen }
                | none => acc
          else acc
        if ¬force ∧ mode ≠ .remote then
          let acc := { acc with
            initialDownloadCount := acc.initialDownloadCount + 1,
            downloadInitialBytes := acc.downloadInitialBytes + size }
          if mode = .raw then
            { acc with
              initialProcessCount := acc.initialProcessCount + 1,
              processInitialBytes := acc.processInitialBytes + len }
          else acc
        else acc
    | none =>
        match probe.compressedLen with
        | some clen =>
            let acc :=
              if cs then
                { acc with
                  calculateSizeCompressedLocalBytes :=
                    acc.calculateSizeCompressedLocalBytes + clen }
              else acc
            if ¬force ∧ mode ≠ .remote then
              { acc with
                initialDownloadCount := acc.initialDownloadCount + 1,
                downloadInitialBytes := acc.downloadInitialBytes + clen }
            else acc
        | none =>
            match probe.downloadLen with
            | some dlen =>
                let acc :=
                  if cs then
                    { acc with
                      calculateSizeCompressedLocalBytes :=
                        acc.calculateSizeCompressedLocalBytes + dlen }
                  else acc
                if ¬force ∧ mode ≠ .remote then
                  { acc with
                    downloadInitialBytes := acc.downloadInitialBytes + dlen }
                else acc
            | none => acc
  else acc

/-- One iteration of the resource loop of `install_directory`
(`files` chained with `other_files`), restricted to the
`DirectoryScanned` bookkeeping (the DOI dispatch sends messages and
does not touch the record).  The `continue` of the Rust loop is the
leading guard. -/
def scanResource (mode : InstallableMode) (cs force : Bool)
    (acc : DirectoryScanned) (rp : Resource × Probe) : DirectoryScanned :=
  if ¬cs ∧ mode = .remote then acc
  else
    let size := compressionSize rp.1 (bestCompression rp.1)
    let acc :=
      if mode = .local ∨ mode = .raw then
        { acc with
          downloadFinalBytes := acc.downloadFinalBytes + size,
          finalCount := acc.finalCount + 1 }
      else acc
    let acc :=
      if mode = .raw then
        { acc with processFinalBytes := acc.processFinalBytes + rp.1.size }
      else acc
    let acc :=
      if cs then
        { acc with
          calculateSizeCompressedRemoteBytes :=
            acc.calculateSizeCompressedRemoteBytes + size,
          calculateSizeRawRemoteBytes := acc.calculateSizeRawRemoteBytes + rp.1.size }
      else acc
    scanProbePart mode cs force size rp.2 acc

/-- The resource-loop part of `install_directory`: the loop runs only
when `dispatch_dois || calculate_size || mode != Remote`, over
`files ++ other_files` paired with their filesystem probes. -/
def scanDirectory (mode : InstallableMode) (dd cs force : Bool)
    (resources : List (Resource × Probe)) : DirectoryScanned :=
  if dd ∨ cs ∨ mode ≠ .remote then
    resources.foldl (scanResource mode cs force) emptyScanned
  else emptyScanned

lemma scanProbePart_finalCount (mode : InstallableMode) (cs force : Bool)
    (size : Nat) (probe : Probe) (acc : DirectoryScanned) :
    (scanProbePart mode cs force size probe acc).finalCount = acc.finalCount := by
  obtain ⟨rl, cl, dl⟩ := probe
  cases rl <;> cases cl <;> cases dl <;>
    simp only [scanProbePart] <;> split_ifs <;> simp_all

lemma scanProbePart_downloadFinalBytes (mode : InstallableMode) (cs force : Bool)
    (size : Nat) (probe : Probe) (acc : DirectoryScanned) :
    (scanProbePart mode cs force size probe acc).downloadFinalBytes
      = acc.downloadFinalBytes := by
  obtain ⟨rl, cl, dl⟩ := probe
  cases rl <;> cases cl <;> cases dl <;>
    simp only [scanProbePart] <;> split_ifs <;> simp_all

lemma scanProbePart_processFinalBytes (mode : InstallableMode) (cs force : Bool)
    (size : Nat) (probe : Probe) (acc : DirectoryScanned) :
    (scanProbePart mode cs force size probe acc).processFinalBytes
      = acc.processFinalBytes := by
  obtain ⟨rl, cl, dl⟩ := probe
  cases rl <;> cases cl <;> cases dl <;>
    simp only [scanProbePart] <;> split_ifs <;> simp_all

lemma scanFold_localraw (mode : InstallableMode) (cs force : Bool)
    (h : mode = .local ∨ mode = .raw) :
    ∀ (rs : List (Resource × Probe)) (acc : DirectoryScanned),
    (rs.foldl (scanResource mode cs force) acc).finalCount = acc.finalCount + rs.length
    ∧ (rs.foldl (scanResource mode cs force) acc).downloadFinalBytes
        = acc.downloadFinalBytes
          + (rs.map (fun rp => compressionSize rp.1 (bestCompression rp.1))).sum
    ∧ (rs.foldl (scanResource mode cs force) acc).processFinalBytes
        = acc.processFinalBytes
          + (if mode = .raw then (rs.map (fun rp => rp.1.size)).sum else 0) := by
  have hnr : mode ≠ .remote := by rcases h with rfl | rfl <;> simp
  intro rs
  induction rs with
  | nil => intro acc; simp
  | cons rp rs ih =>
    intro acc
    rw [List.foldl_cons]
    have hguard : ¬(¬cs ∧ mode = .remote) := by
      rintro ⟨-, hmode⟩
      exact hnr hmode
    obtain ⟨h1, h2, h3⟩ := ih (scanResource mode cs force acc rp)
    rw [h1, h2, h3]
    have hstep : (scanResource mode cs force acc rp).finalCount = acc.finalCount + 1
        ∧ (scanResource mode cs force acc rp).downloadFinalBytes
            = acc.downloadFinalBytes + compressionSize rp.1 (bestCompression rp.1)
        ∧ (scanResource mode cs force acc rp).processFinalBytes
            = acc.processFinalBytes + (if mode = .raw then rp.1.size else 0) := by
      simp only [scanResource, if_neg hguard, scanProbePart_finalCount,
        scanProbePart_downloadFinalBytes, scanProbePart_processFinalBytes]
      rcases h with rfl | rfl <;> split_ifs <;> simp_all
    obtain ⟨s1, s2, s3⟩ := hstep
    rw [s1, s2, s3]
    rcases h with rfl | rfl <;> simp <;> omega

lemma scanFold_remote_nocs (force : Bool) :
    ∀ (rs : List (Resource × Probe)) (acc : DirectoryScanned),
    rs.foldl (scanResource .remote false force) acc = acc := by
  intro rs
  induction rs with
  | nil => intro acc; rfl
  | cons rp rs ih =>
    intro acc
    rw [List.foldl_cons]
    have hguard : (¬(false : Bool) = true ∧ InstallableMode.remote = .remote) := by
      simp
    rw [scanResource, if_pos hguard]
    exact ih acc

/-- C6: in local or raw mode the emitted `DirectoryScanned` record has
`final_count` equal to the number of files plus other files,
`download.final_bytes` equal to the sum of the selected best
compressions' transmitted sizes, and `process.final_bytes` equal to the
sum of raw sizes exactly in raw mode (zero in local mode); in remote
mode with `calculate_size` off all three are zero. -/
theorem directory_scanned_final_spec (mode : InstallableMode) (dd cs force : Bool)
    (resources : List (Resource × Probe)) :
    (mode = .local ∨ mode = .raw →
      (scanDirectory mode dd cs force resources).finalCount = resources.length
      ∧ (scanDirectory mode dd cs force resources).downloadFinalBytes
          = (resources.map (fun rp => compressionSize rp.1 (bestCompression rp.1))).sum
      ∧ (scanDirectory mode dd cs force resources).processFinalBytes
          = (if mode = .raw then (resources.map (fun rp => rp.1.size)).sum else 0))
    ∧ (mode = .remote → cs = false →
      (scanDirectory mode dd cs force resources).finalCount = 0
      ∧ (scanDirectory mode dd cs force resources).downloadFinalBytes = 0
      ∧ (scanDirectory mode dd cs force resources).processFinalBytes = 0) := by
  constructor
  · intro h
    have hnr : mode ≠ .remote := by rcases h with rfl | rfl <;> simp
    rw [scanDirectory, if_pos (Or.inr (Or.inr hnr))]
    obtain ⟨h1, h2, h3⟩ := scanFold_localraw mode cs force h resources emptyScanned
    rw [h1, h2, h3]
    simp [emptyScanned]
  · rintro rfl rfl
    rw [scanDirectory]
    by_cases hdd : ((dd = true) ∨ ((false : Bool) = true)
        ∨ (InstallableMode.remote ≠ InstallableMode.remote))
    · rw [if_pos hdd, scanFold_remote_nocs force resources emptyScanned]
      simp [emptyScanned]
    · rw [if_neg hdd]
      simp [emptyScanned]

/-- A concrete two-resource directory: one file with a smaller Brotli
alternative, one with only the identity compression and a raw file
already on disk. -/
def sampleResources : List (Resource × Probe) :=
  [(⟨"a", 10, [1], ⟨Compression.brotli 4 [2] ".br", [Compression.noneCompression ""]⟩, none⟩,
    ⟨none, none, none⟩),
   (⟨"b", 7, [3], ⟨Compression.noneCompression "", []⟩, none⟩, ⟨some 7, none, none⟩)]

/-- C6 witness: a raw-mode scan of the sample directory has
`final_count = 2`, `download.final_bytes = 4 + 7`, and
`process.final_bytes = 10 + 7`. -/
theorem directory_scanned_final_spec_witness :
    (InstallableMode.raw = .local ∨ InstallableMode.raw = .raw)
    ∧ ((scanDirectory .raw false false false sampleResources).finalCount
          = sampleResources.length
        ∧ (scanDirectory .raw false false false sampleResources).downloadFinalBytes
          = (sampleResources.map
              (fun rp => compressionSize rp.1 (bestCompression rp.1))).sum
        ∧ (scanDirectory .raw false false false sampleResources).processFinalBytes
          = (if InstallableMode.raw = .raw then
              (sampleResources.map (fun rp => rp.1.size)).sum else 0)) :=
  ⟨Or.inr rfl,
    (directory_scanned_final_spec .raw false false false sampleResources).1 (Or.inr rfl)⟩

/-! ## Brotli decoder (`decode.rs::brotli`) -/

/-- A progress record (`types::DecodeProgress` / `types::RemoteProgress`
share this shape): byte deltas plus the terminal flag. -/
structure Progress where
  initialBytes : Int
  currentBytes : Int
  finalBytes : Int
  complete : Bool
deriving DecidableEq, Repr

/-- `constants::PROGRESS_SIZE`: the coarse-progress threshold. -/
def progressSize : Int := 131072

/-- Observable actions of a `decode::brotli` run, in order: progress
messages sent on the channel, the rename of `P<suffix>.decompress` to
`P`, and the best-effort removal of `P<suffix>` (whose failure the code
ignores, so the event records the attempt only). -/
inductive DecodeEvent where
  | progress (p : Progress)
  | renameDecompressToFile
  | removeCompressed
deriving DecidableEq, Repr

/-- Embedding of `types::DecompressError` (the `File` and `Send`
variants concern I/O and channel failures that the model's environment
does not produce). -/
inductive DecompressError where
  | hash (expected downloaded : List Nat)
  | size (expected downloaded : Nat)
  | interrupted
  | decode
deriving DecidableEq, Repr

/-- Environment of one `decode::brotli` run: the abstract SHA3-224
digest function, whether a regular file already exists at the raw path
`P` (with its length), the successive successful reads delivered by the
Brotli decompressor (a read of `[]` means end of stream), the
cancellation flag (constant over the run), and whether the reader fails
with a non-`Interrupted` error after delivering all listed chunks. -/
structure DecodeEnv where
  hashFn : List Nat → List Nat
  rawFileLen : Option Nat
  chunks : List (List Nat)
  running : Bool
  readError : Bool

/-- The bytes actually decoded in a run: the chunks up to the first
empty read, concatenated. -/
def decodedBytes (env : DecodeEnv) : List Nat :=
  (env.chunks.takeWhile (fun chunk => chunk ≠ [])).flatten

/-- One iteration of the decode loop (`decode.rs`): append the chunk,
bump the progress accumulator, and emit a coarse progress message when
the accumulator reaches the threshold.  State: decoded bytes so far,
accumulator, events so far. -/
def decodeStep (st : List Nat × Int × List DecodeEvent) (chunk : List Nat) :
    List Nat × Int × List DecodeEvent :=
  let bytes := st.1 ++ chunk
  let ps := st.2.1 + (chunk.length : Int)
  if ps ≥ progressSize then
    (bytes, 0, st.2.2 ++ [.progress ⟨0, ps, ps, false⟩])
  else
    (bytes, ps, st.2.2)

/-- The state of the decode loop after processing the stream: decoded
bytes (the `hasher` input and the `size` counter), the residual
progress accumulator, and the progress messages sent so far. -/
def decodeRunState (env : DecodeEnv) : List Nat × Int × List DecodeEvent :=
  (env.chunks.takeWhile (fun chunk => chunk ≠ [])).foldl decodeStep ([], 0, [])

/-- The progress messages of a full decode loop: those sent at the
coarse threshold plus the residual one sent after the loop when the
accumulator is positive. -/
def decodeRunEvents (env : DecodeEnv) : List DecodeEvent :=
  (decodeRunState env).2.2 ++
    (if (decodeRunState env).2.1 > 0 then
      [DecodeEvent.progress
        ⟨0, (decodeRunState env).2.1, (decodeRunState env).2.1, false⟩]
     else [])

/-- Embedding of `decode::brotli` (`decode.rs`): skip when the raw file
already exists and `force` is off; process chunks until the first empty
read, aborting with `Interrupted` when the running flag is cleared (the
flag is checked after each non-empty read, before writing) and with
`Decode` when the reader errors; emit the residual progress message;
then verify digest and size (in that order), rename
`P<suffix>.decompress → P`, best-effort delete `P<suffix>` unless
`keep`, and emit the terminal complete message. -/
def decodeBrotli (env : DecodeEnv) (force keep : Bool) (expectedSize : Nat)
    (expectedHash : List Nat) : Except DecompressError Unit × List DecodeEvent :=
  if ¬force ∧ env.rawFileLen.isSome then (.ok (), [])
  else if env.running = false ∧ env.chunks.takeWhile (fun chunk => chunk ≠ []) ≠ [] then
    (.error .interrupted, [])
  else if env.readError
      ∧ (env.chunks.takeWhile (fun chunk => chunk ≠ [])).length = env.chunks.length then
    (.error .decode, (decodeRunState env).2.2)
  else if env.hashFn (decodeRunState env).1 ≠ expectedHash then
    (.error (.hash expectedHash (env.hashFn (decodeRunState env).1)), decodeRunEvents env)
  else if (decodeRunState env).1.length ≠ expectedSize then
    (.error (.size expectedSize (decodeRunState env).1.length), decodeRunEvents env)
  else
    (.ok (), decodeRunEvents env ++ [DecodeEvent.renameDecompressToFile]
      ++ (if keep then [] else [DecodeEvent.removeCompressed])
      ++ [DecodeEvent.progress ⟨0, 0, 0, true⟩])

lemma decodeFold_spec : ∀ (chunks : List (List Nat)) (bytes : List Nat) (ps : Int)
    (evs : List DecodeEvent), 0 ≤ ps →
    (chunks.foldl decodeStep (bytes, ps, evs)).1 = bytes ++ chunks.flatten
    ∧ 0 ≤ (chunks.foldl decodeStep (bytes, ps, evs)).2.1
    ∧ ∀ e ∈ (chunks.foldl decodeStep (bytes, ps, evs)).2.2,
        e ∈ evs ∨ ∃ p, e = .progress p ∧ 0 < p.currentBytes ∧ p.complete = false := by
  intro chunks
  induction chunks with
  | nil =>
    intro bytes ps evs hps
    refine ⟨by simp, hps, ?_⟩
    intro e he
    exact Or.inl he
  | cons chunk rest ih =>
    intro bytes ps evs hps
    rw [List.foldl_cons, decodeStep]
    by_cases hth : ps + (chunk.length : Int) ≥ progressSize
    · rw [if_pos hth]
      obtain ⟨h1, h2, h3⟩ := ih (bytes ++ chunk) 0
        (evs ++ [.progress ⟨0, ps + (chunk.length : Int), ps + (chunk.length : Int), false⟩])
        le_rfl
      refine ⟨by rw [h1]; simp, h2, ?_⟩
      intro e he
      rcases h3 e he with hmem | hprog
      · rcases List.mem_append.mp hmem with hmem | hmem
        · exact Or.inl hmem
        · right
          refine ⟨⟨0, ps + (chunk.length : Int), ps + (chunk.length : Int), false⟩,
            by simpa using hmem, ?_, rfl⟩
          show (0 : Int) < ps + (chunk.length : Int)
          have hps0 : (0 : Int) < progressSize := by decide
          omega
      · exact Or.inr hprog
    · rw [if_neg hth]
      obtain ⟨h1, h2, h3⟩ := ih (bytes ++ chunk) (ps + (chunk.length : Int)) evs
        (by positivity)
      exact ⟨by rw [h1]; simp, h2, h3⟩

/-- C3: for every `decode::brotli` run that reaches finalization, a
digest mismatch yields the `Hash` error and a size mismatch the `Size`
error, in both cases without the rename of `P<suffix>.decompress` to
`P`; when both checks pass the function renames, then (when `keep` is
off) attempts the best-effort delete of `P<suffix>`, and finally emits
the terminal complete progress message, every earlier message being
non-terminal. -/
theorem decode_finalize_spec (env : DecodeEnv) (force keep : Bool)
    (expectedSize : Nat) (expectedHash : List Nat)
    (hgo : force = true ∨ env.rawFileLen = none)
    (hrun : env.running = true)
    (hread : env.readError = false) :
    (env.hashFn (decodedBytes env) ≠ expectedHash →
      (decodeBrotli env force keep expectedSize expectedHash).1
          = .error (.hash expectedHash (env.hashFn (decodedBytes env)))
      ∧ DecodeEvent.renameDecompressToFile
          ∉ (decodeBrotli env force keep expectedSize expectedHash).2)
    ∧ (env.hashFn (decodedBytes env) = expectedHash →
        (decodedBytes env).length ≠ expectedSize →
      (decodeBrotli env force keep expectedSize expectedHash).1
          = .error (.size expectedSize (decodedBytes env).length)
      ∧ DecodeEvent.renameDecompressToFile
          ∉ (decodeBrotli env force keep expectedSize expectedHash).2)
    ∧ (env.hashFn (decodedBytes env) = expectedHash →
        (decodedBytes env).length = expectedSize →
      (decodeBrotli env force keep expectedSize expectedHash).1 = .ok ()
      ∧ ∃ t, (decodeBrotli env force keep expectedSize expectedHash).2
            = t ++ [DecodeEvent.renameDecompressToFile]
              ++ (if keep then [] else [DecodeEvent.removeCompressed])
              ++ [DecodeEvent.progress ⟨0, 0, 0, true⟩]
          ∧ ∀ p, DecodeEvent.progress p ∈ t → p.complete = false) := by
  have hskip : ¬(¬force = true ∧ env.rawFileLen.isSome = true) := by
    rcases hgo with rfl | hnone
    · simp
    · simp [hnone]
  have hint : ¬(env.running = false
      ∧ env.chunks.takeWhile (fun chunk => chunk ≠ []) ≠ []) := by
    rw [hrun]
    simp
  have herr : ¬(env.readError = true
      ∧ (env.chunks.takeWhile (fun chunk => chunk ≠ [])).length
          = env.chunks.length) := by
    rw [hread]
    simp
  obtain ⟨hb, hpos, hmsgs⟩ := decodeFold_spec
    (env.chunks.takeWhile (fun chunk => chunk ≠ [])) [] 0 [] le_rfl
  rw [List.nil_append] at hb
  have hbytes : (decodeRunState env).1 = decodedBytes env := hb
  have hallmsgs : ∀ e ∈ decodeRunEvents env,
      ∃ p, e = DecodeEvent.progress p ∧ p.complete = false := by
    intro e he
    rcases List.mem_append.mp he with he | he
    · rcases hmsgs e he with hin | ⟨p, hp, _, hc⟩
      · simp at hin
      · exact ⟨p, hp, hc⟩
    · split_ifs at he with hgt
      · simp only [List.mem_singleton] at he
        exact ⟨_, he, rfl⟩
      · simp at he
  have hnorename : DecodeEvent.renameDecompressToFile ∉ decodeRunEvents env := by
    intro hmem
    rcases hallmsgs _ hmem with ⟨p, hp, -⟩
    exact absurd hp (by simp)
  refine ⟨?_, ?_, ?_⟩
  · intro hh
    have hcond : env.hashFn (decodeRunState env).1 ≠ expectedHash := by
      rw [hbytes]; exact hh
    rw [decodeBrotli, if_neg hskip, if_neg hint, if_neg herr, if_pos hcond]
    exact ⟨by rw [hbytes], hnorename⟩
  · intro hh hs
    have hcond : ¬(env.hashFn (decodeRunState env).1 ≠ expectedHash) := by
      rw [hbytes, hh]
      exact fun hc => hc rfl
    have hconds : (decodeRunState env).1.length ≠ expectedSize := by
      rw [hbytes]; exact hs
    rw [decodeBrotli, if_neg hskip, if_neg hint, if_neg herr, if_neg hcond,
      if_pos hconds]
    exact ⟨by rw [hbytes], hnorename⟩
  · intro hh hs
    have hcond : ¬(env.hashFn (decodeRunState env).1 ≠ expectedHash) := by
      rw [hbytes, hh]
      exact fun hc => hc rfl
    have hconds : ¬((decodeRunState env).1.length ≠ expectedSize) := by
      rw [hbytes, hs]
      exact fun hc => hc rfl
    rw [decodeBrotli, if_neg hskip, if_neg hint, if_neg herr, if_neg hcond,
      if_neg hconds]
    refine ⟨rfl, decodeRunEvents env, by simp, ?_⟩
    intro p hp
    rcases hallmsgs _ hp with ⟨q, hq, hqc⟩
    injection hq with h
    rw [h]
    exact hqc

/-- C3 witness: a run with identity digest over a single 3-byte chunk,
matching expectations, succeeds with the rename, the delete (keep off)
and the terminal message last. -/
def sampleDecodeEnv : DecodeEnv :=
  { hashFn := fun bytes => bytes
    rawFileLen := none
    chunks := [[1, 2, 3]]
    running := true
    readError := false }

theorem decode_finalize_spec_witness :
    ((true : Bool) = true ∨ sampleDecodeEnv.rawFileLen = none)
    ∧ sampleDecodeEnv.running = true
    ∧ sampleDecodeEnv.readError = false
    ∧ (sampleDecodeEnv.hashFn (decodedBytes sampleDecodeEnv) = [1, 2, 3] →
        (decodedBytes sampleDecodeEnv).length = 3 →
      (decodeBrotli sampleDecodeEnv true false 3 [1, 2, 3]).1 = .ok ()
      ∧ ∃ t, (decodeBrotli sampleDecodeEnv true false 3 [1, 2, 3]).2
            = t ++ [DecodeEvent.renameDecompressToFile]
              ++ (if false then [] else [DecodeEvent.removeCompressed])
              ++ [DecodeEvent.progress ⟨0, 0, 0, true⟩]
          ∧ ∀ p, DecodeEvent.progress p ∈ t → p.complete = false) :=
  ⟨Or.inl rfl, rfl, rfl,
    (decode_finalize_spec sampleDecodeEnv true false 3 [1, 2, 3]
      (Or.inl rfl) rfl rfl).2.2⟩

/-! ## File download (`remote.rs::Server::download_file` /
    `Server::start_download`) -/

/-- An HTTP request issued by `start_download`: a plain GET, or a GET
with a `Range: bytes=skip-` header. -/
inductive ReqKind where
  | plain
  | range (skip : Nat)
deriving DecidableEq, Repr

/-- Filesystem effects of `download_file`: `File::create` of
`P<suffix>.download` (which truncates an existing file) and the final
`fs::rename` of `P<suffix>.download` to `P<suffix>`. -/
inductive FileEffect where
  | createDownload
  | renameDownloadToFile
deriving DecidableEq, Repr

/-- Observable actions of a `download_file` run, in program order. -/
inductive DownloadEvent where
  | msg (p : Progress)
  | eff (e : FileEffect)
  | request (r : ReqKind)
deriving DecidableEq, Repr

/-- Embedding of `types::DownloadError` restricted to the variants the
model can produce (`Connection`, `File`, `Send` and `Semaphore` arise
from transport, I/O and channel failures that the model's environment
does not raise). -/
inductive DownloadError where
  | hash (expected downloaded : List Nat)
  | size (expected downloaded : Nat)
deriving DecidableEq, Repr

/-- A response delivered by the server: status code and body chunks. -/
structure HttpResponse where
  status : Nat
  chunks : List (List Nat)
deriving DecidableEq, Repr

/-- Environment of one `download_file` run: the abstract SHA3-224
digest function, the `fs::metadata` results at `P<suffix>` and
`P<suffix>.download` (length of the regular file, `none` when absent or
not regular), the bytes already in `P<suffix>.download` (hashed on
resume), and the responses the server returns to a plain GET and to a
range GET. -/
structure DownloadEnv where
  hashFn : List Nat → List Nat
  filePathLen : Option Nat
  downloadPathLen : Option Nat
  existingBytes : List Nat
  plainResponse : HttpResponse
  rangeResponse : Nat → HttpResponse

/-- Result of one `download_file` run: the returned value, the ordered
trace of messages, filesystem effects and requests, whether the
streaming loop was reached, and the final hasher input and size
counter (present only when an expected hash / size was supplied). -/
structure DownloadRun where
  result : Except DownloadError Unit
  trace : List DownloadEvent
  streamed : Bool
  finalHasher : Option (List Nat)
  finalSize : Option Nat

/-- Embedding of `remote::DownloadState` as produced by the `on_begin`
closure of `download_file`: either the file already exists (`Complete`,
with the terminal message it sends), or the download proceeds
(`NotStarted` with `skip = none`, `Partial` with `skip = some n`),
carrying the seeded hasher, size counter and creation effects. -/
inductive BeginState where
  | complete (m : Progress)
  | go (skip : Option Nat) (hasher : Option (List Nat)) (size : Option Nat)
      (effects : List DownloadEvent)

/-- The `on_begin` closure of `download_file` (`remote.rs`): `force`
creates a fresh `P<suffix>.download`; otherwise a regular file at
`P<suffix>` yields `Complete` with a terminal message whose bytes are
`expected_size.unwrap_or(metadata.len())`; otherwise a regular file at
`P<suffix>.download` yields `Partial` with the hasher recomputed over
the existing bytes and the size counter seeded with the length;
otherwise a fresh `P<suffix>.download` is created. -/
def beginDownload (env : DownloadEnv) (force : Bool) (expectedSize : Option Nat)
    (expectedHash : Option (List Nat)) : BeginState :=
  if force then
    .go none (expectedHash.map fun _ => []) (expectedSize.map fun _ => 0)
      [.eff .createDownload]
  else
    match env.filePathLen with
    | some len =>
        .complete ⟨((expectedSize.getD len : Nat) : Int),
          ((expectedSize.getD len : Nat) : Int),
          ((expectedSize.getD len : Nat) : Int), true⟩
    | none =>
        match env.downloadPathLen with
        | some len =>
            .go (some len) (expectedHash.map fun _ => env.existingBytes)
              (expectedSize.map fun _ => len) []
        | none =>
            .go none (expectedHash.map fun _ => []) (expectedSize.map fun _ => 0)
              [.eff .createDownload]

/-- The request-dispatch part of `Server::start_download` together with
the `on_range_failed` closure of `download_file`: `NotStarted` issues a
plain GET; `Partial` issues a range GET and, when the status is not
206, sends the negative progress message, recreates a fresh empty
`P<suffix>.download`, resets hasher and size counter, and reissues a
plain GET.  Returns the events, the body chunks to stream, and the
hasher and size counter entering the streaming loop. -/
def dispatchRequest (env : DownloadEnv) (expectedSize : Option Nat)
    (expectedHash : Option (List Nat)) (skip : Option Nat)
    (hasher : Option (List Nat)) (size : Option Nat) :
    List DownloadEvent × List (List Nat) × Option (List Nat) × Option Nat :=
  match skip with
  | none => ([.request .plain], env.plainResponse.chunks, hasher, size)
  | some skip =>
      if (env.rangeResponse skip).status = 206 then
        ([.request (.range skip)], (env.rangeResponse skip).chunks, hasher, size)
      else
        ([.request (.range skip),
          .msg ⟨-(skip : Int), -(skip : Int), -(skip : Int), false⟩,
          .eff .createDownload, .request .plain],
         env.plainResponse.chunks,
         expectedHash.map fun _ => [], expectedSize.map fun _ => 0)

/-- One iteration of the chunk loop of `download_file`: append to the
file (not tracked), update the hasher and size counter when present,
bump the progress accumulator and emit a coarse progress message at the
threshold.  State: hasher, size counter, accumulator, events. -/
def downloadStep (st : Option (List Nat) × Option Nat × Int × List DownloadEvent)
    (chunk : List Nat) : Option (List Nat) × Option Nat × Int × List DownloadEvent :=
  let hasher := st.1.map (· ++ chunk)
  let size := st.2.1.map (· + chunk.length)
  let ps := st.2.2.1 + (chunk.length : Int)
  if ps ≥ progressSize then
    (hasher, size, 0, st.2.2.2 ++ [.msg ⟨0, ps, ps, false⟩])
  else
    (hasher, size, ps, st.2.2.2)

/-- The full chunk loop plus the residual progress message sent after
it when the accumulator is positive. -/
def streamChunks (hasher : Option (List Nat)) (size : Option Nat)
    (chunks : List (List Nat)) :
    Option (List Nat) × Option Nat × List DownloadEvent :=
  let st := chunks.foldl downloadStep (hasher, size, 0, [])
  (st.1, st.2.1,
    st.2.2.2 ++ (if st.2.2.1 > 0 then [.msg ⟨0, st.2.2.1, st.2.2.1, false⟩] else []))

/-- The size check of the finalization of `download_file` followed by
the success tail: rename `P<suffix>.download → P<suffix>` then the
terminal complete message. -/
def finalizeSize (expectedSize : Option Nat) (size : Option Nat) :
    Except DownloadError Unit × List DownloadEvent :=
  match size, expectedSize with
  | some n, some expected =>
      if n ≠ expected then (.error (.size expected n), [])
      else (.ok (), [.eff .renameDownloadToFile, .msg ⟨0, 0, 0, true⟩])
  | _, _ => (.ok (), [.eff .renameDownloadToFile, .msg ⟨0, 0, 0, true⟩])

/-- The finalization of `download_file` (`remote.rs`, after the file
and permits are dropped): the digest check when both hasher and
expected hash are present, then the size check, then rename and
terminal message. -/
def finalizeDownload (env : DownloadEnv) (expectedSize : Option Nat)
    (expectedHash : Option (List Nat)) (hasher : Option (List Nat))
    (size : Option Nat) : Except DownloadError Unit × List DownloadEvent :=
  match hasher, expectedHash with
  | some bytes, some expected =>
      if env.hashFn bytes ≠ expected then
        (.error (.hash expected (env.hashFn bytes)), [])
      else finalizeSize expectedSize size
  | _, _ => finalizeSize expectedSize size

/-- A `download_file` run that passed `on_begin` with a non-`Complete`
state: dispatch the request, stream the body, finalize. -/
def goRun (env : DownloadEnv) (expectedSize : Option Nat)
    (expectedHash : Option (List Nat)) (skip : Option Nat)
    (hasher : Option (List Nat)) (size : Option Nat)
    (effects : List DownloadEvent) : DownloadRun :=
  let d := dispatchRequest env expectedSize expectedHash skip hasher size
  let s := streamChunks d.2.2.1 d.2.2.2 d.2.1
  let f := finalizeDownload env expectedSize expectedHash s.1 s.2.1
  { result := f.1
    trace := effects ++ d.1 ++ s.2.2 ++ f.2
    streamed := true
    finalHasher := s.1
    finalSize := s.2.1 }

/-- Embedding of `Server::download_file` (`remote.rs`): compute the
begin state; a `Complete` state only sends its terminal message;
otherwise dispatch, stream and finalize. -/
def downloadFile (env : DownloadEnv) (force : Bool) (expectedSize : Option Nat)
    (expectedHash : Option (List Nat)) : DownloadRun :=
  match beginDownload env force expectedSize expectedHash with
  | .complete m =>
      { result := .ok (), trace := [.msg m], streamed := false,
        finalHasher := none, finalSize := none }
  | .go skip hasher size effects =>
      goRun env expectedSize expectedHash skip hasher size effects

lemma downloadFold_spec : ∀ (chunks : List (List Nat)) (hasher : Option (List Nat))
    (size : Option Nat) (ps : Int) (evs : List DownloadEvent), 0 ≤ ps →
    (chunks.foldl downloadStep (hasher, size, ps, evs)).1
        = hasher.map (· ++ chunks.flatten)
    ∧ (chunks.foldl downloadStep (hasher, size, ps, evs)).2.1
        = size.map (· + chunks.flatten.length)
    ∧ 0 ≤ (chunks.foldl downloadStep (hasher, size, ps, evs)).2.2.1
    ∧ ∀ e ∈ (chunks.foldl downloadStep (hasher, size, ps, evs)).2.2.2,
        e ∈ evs ∨ ∃ p, e = .msg p ∧ 0 < p.currentBytes ∧ p.complete = false := by
  intro chunks
  induction chunks with
  | nil =>
    intro hasher size ps evs hps
    refine ⟨?_, ?_, hps, fun e he => Or.inl he⟩
    · cases hasher <;> simp
    · cases size <;> simp
  | cons chunk rest ih =>
    intro hasher size ps evs hps
    rw [List.foldl_cons, downloadStep]
    by_cases hth : ps + (chunk.length : Int) ≥ progressSize
    · rw [if_pos hth]
      obtain ⟨h1, h2, h3, h4⟩ := ih (hasher.map (· ++ chunk))
        (size.map (· + chunk.length)) 0
        (evs ++ [.msg ⟨0, ps + (chunk.length : Int), ps + (chunk.length : Int), false⟩])
        le_rfl
      refine ⟨?_, ?_, h3, ?_⟩
      · rw [h1]; cases hasher <;> simp
      · rw [h2]; cases size <;> simp [Nat.add_assoc]
      · intro e he
        rcases h4 e he with hmem | hprog
        · rcases List.mem_append.mp hmem with hmem | hmem
          · exact Or.inl hmem
          · right
            refine ⟨⟨0, ps + (chunk.length : Int), ps + (chunk.length : Int), false⟩,
              by simpa using hmem, ?_, rfl⟩
            show (0 : Int) < ps + (chunk.length : Int)
            have hps0 : (0 : Int) < progressSize := by decide
            omega
        · exact Or.inr hprog
    · rw [if_neg hth]
      obtain ⟨h1, h2, h3, h4⟩ := ih (hasher.map (· ++ chunk))
        (size.map (· + chunk.length)) (ps + (chunk.length : Int)) evs (by positivity)
      refine ⟨?_, ?_, h3, h4⟩
      · rw [h1]; cases hasher <;> simp
      · rw [h2]; cases size <;> simp [Nat.add_assoc]

lemma streamChunks_hasher (hasher : Option (List Nat)) (size : Option Nat)
    (chunks : List (List Nat)) :
    (streamChunks hasher size chunks).1 = hasher.map (· ++ chunks.flatten) :=
  (downloadFold_spec chunks hasher size 0 [] le_rfl).1

lemma streamChunks_size (hasher : Option (List Nat)) (size : Option Nat)
    (chunks : List (List Nat)) :
    (streamChunks hasher size chunks).2.1 = size.map (· + chunks.flatten.length) :=
  (downloadFold_spec chunks hasher size 0 [] le_rfl).2.1

lemma streamChunks_msgs (hasher : Option (List Nat)) (size : Option Nat)
    (chunks : List (List Nat)) :
    ∀ e ∈ (streamChunks hasher size chunks).2.2,
      ∃ p, e = DownloadEvent.msg p ∧ 0 < p.currentBytes ∧ p.complete = false := by
  intro e he
  obtain ⟨-, -, hpos, hmsgs⟩ := downloadFold_spec chunks hasher size 0 [] le_rfl
  rcases List.mem_append.mp he with he | he
  · rcases hmsgs e he with hin | hprog
    · simp at hin
    · exact hprog
  · split_ifs at he with hgt
    · simp only [List.mem_singleton] at he
      exact ⟨_, he, hgt, rfl⟩
    · simp at he

lemma dispatch_no_rename (env : DownloadEnv) (expectedSize : Option Nat)
    (expectedHash : Option (List Nat)) (skip : Option Nat)
    (hasher : Option (List Nat)) (size : Option Nat) :
    DownloadEvent.eff .renameDownloadToFile
      ∉ (dispatchRequest env expectedSize expectedHash skip hasher size).1 := by
  rcases skip with - | skipv
  · simp [dispatchRequest]
  · rw [dispatchRequest]
    split_ifs <;> simp

lemma dispatch_msgs_incomplete (env : DownloadEnv) (expectedSize : Option Nat)
    (expectedHash : Option (List Nat)) (skip : Option Nat)
    (hasher : Option (List Nat)) (size : Option Nat) :
    ∀ p, DownloadEvent.msg p
        ∈ (dispatchRequest env expectedSize expectedHash skip hasher size).1 →
      p.complete = false := by
  intro p hp
  rcases skip with - | skipv
  · simp [dispatchRequest] at hp
  · rw [dispatchRequest] at hp
    split_ifs at hp
    · simp at hp
    · simp only [List.mem_cons, List.not_mem_nil, or_false] at hp
      rcases hp with h | h | h | h
      · exact absurd h (by simp)
      · injection h with h2
        rw [h2]
      · exact absurd h (by simp)
      · exact absurd h (by simp)

lemma finalizeDownload_events (env : DownloadEnv) (expectedSize : Option Nat)
    (expectedHash : Option (List Nat)) (hasher : Option (List Nat))
    (size : Option Nat) :
    (finalizeDownload env expectedSize expectedHash hasher size).2 = []
    ∨ (finalizeDownload env expectedSize expectedHash hasher size).2
        = [DownloadEvent.eff .renameDownloadToFile, DownloadEvent.msg ⟨0, 0, 0, true⟩] := by
  cases hasher <;> cases expectedHash <;> cases size <;> cases expectedSize <;>
    simp only [finalizeDownload, finalizeSize] <;>
      first
        | (split_ifs <;> simp)
        | simp

lemma finalizeDownload_spec (env : DownloadEnv) (expectedSize : Option Nat)
    (expectedHash : Option (List Nat)) (hasher : Option (List Nat))
    (size : Option Nat) :
    (∀ expected bytes, expectedHash = some expected → hasher = some bytes →
        env.hashFn bytes ≠ expected →
      finalizeDownload env expectedSize expectedHash hasher size
        = (.error (.hash expected (env.hashFn bytes)), []))
    ∧ (∀ expected n, expectedSize = some expected → size = some n →
        (∀ ehv bytes, expectedHash = some ehv → hasher = some bytes →
          env.hashFn bytes = ehv) →
        n ≠ expected →
      finalizeDownload env expectedSize expectedHash hasher size
        = (.error (.size expected n), []))
    ∧ ((∀ ehv bytes, expectedHash = some ehv → hasher = some bytes →
          env.hashFn bytes = ehv) →
        (∀ esv n, expectedSize = some esv → size = some n → n = esv) →
      finalizeDownload env expectedSize expectedHash hasher size
        = (.ok (), [DownloadEvent.eff .renameDownloadToFile,
            DownloadEvent.msg ⟨0, 0, 0, true⟩])) := by
  refine ⟨?_, ?_, ?_⟩
  · rintro expected bytes rfl rfl hne
    simp [finalizeDownload, hne]
  · rintro expected n rfl rfl hok hne
    cases hasher with
    | none =>
      cases expectedHash <;> simp [finalizeDownload, finalizeSize, hne]
    | some bytes =>
      cases expectedHash with
      | none => simp [finalizeDownload, finalizeSize, hne]
      | some ehv =>
        have heq : env.hashFn bytes = ehv := hok ehv bytes rfl rfl
        simp [finalizeDownload, finalizeSize, heq, hne]
  · intro hok hsz
    cases hasher with
    | none =>
      cases expectedHash <;> cases size <;> cases expectedSize <;>
        simp_all [finalizeDownload, finalizeSize]
    | some bytes =>
      cases expectedHash with
      | none =>
        cases size <;> cases expectedSize <;>
          simp_all [finalizeDownload, finalizeSize]
      | some ehv =>
        have heq : env.hashFn bytes = ehv := hok ehv bytes rfl rfl
        cases size <;> cases expectedSize <;>
          simp_all [finalizeDownload, finalizeSize]

lemma goRun_spec (env : DownloadEnv) (expectedSize : Option Nat)
    (expectedHash : Option (List Nat)) (skip : Option Nat)
    (hasher : Option (List Nat)) (size : Option Nat) (effects : List DownloadEvent)
    (heffmsg : ∀ p, DownloadEvent.msg p ∈ effects → p.complete = false)
    (heffren : DownloadEvent.eff .renameDownloadToFile ∉ effects) :
    (∀ expected bytes, expectedHash = some expected →
        (goRun env expectedSize expectedHash skip hasher size effects).finalHasher
          = some bytes →
        env.hashFn bytes ≠ expected →
      (goRun env expectedSize expectedHash skip hasher size effects).result
          = .error (.hash expected (env.hashFn bytes))
      ∧ DownloadEvent.eff .renameDownloadToFile
          ∉ (goRun env expectedSize expectedHash skip hasher size effects).trace)
    ∧ (∀ expected n, expectedSize = some expected →
        (goRun env expectedSize expectedHash skip hasher size effects).finalSize
          = some n →
        (∀ ehv bytes, expectedHash = some ehv →
          (goRun env expectedSize expectedHash skip hasher size effects).finalHasher
            = some bytes →
          env.hashFn bytes = ehv) →
        n ≠ expected →
      (goRun env expectedSize expectedHash skip hasher size effects).result
          = .error (.size expected n)
      ∧ DownloadEvent.eff .renameDownloadToFile
          ∉ (goRun env expectedSize expectedHash skip hasher size effects).trace)
    ∧ ((∀ ehv bytes, expectedHash = some ehv →
          (goRun env expectedSize expectedHash skip hasher size effects).finalHasher
            = some bytes →
          env.hashFn bytes = ehv) →
        (∀ esv n, expectedSize = some esv →
          (goRun env expectedSize expectedHash skip hasher size effects).finalSize
            = some n →
          n = esv) →
      (goRun env expectedSize expectedHash skip hasher size effects).result = .ok ()
      ∧ ∃ t, (goRun env expectedSize expectedHash skip hasher size effects).trace
            = t ++ [DownloadEvent.eff .renameDownloadToFile,
                DownloadEvent.msg ⟨0, 0, 0, true⟩]
          ∧ ∀ p, DownloadEvent.msg p ∈ t → p.complete = false) := by
  have hFH : (goRun env expectedSize expectedHash skip hasher size effects).finalHasher
      = (streamChunks
          (dispatchRequest env expectedSize expectedHash skip hasher size).2.2.1
          (dispatchRequest env expectedSize expectedHash skip hasher size).2.2.2
          (dispatchRequest env expectedSize expectedHash skip hasher size).2.1).1 := rfl
  have hFS : (goRun env expectedSize expectedHash skip hasher size effects).finalSize
      = (streamChunks
          (dispatchRequest env expectedSize expectedHash skip hasher size).2.2.1
          (dispatchRequest env expectedSize expectedHash skip hasher size).2.2.2
          (dispatchRequest env expectedSize expectedHash skip hasher size).2.1).2.1 := rfl
  have hRES : (goRun env expectedSize expectedHash skip hasher size effects).result
      = (finalizeDownload env expectedSize expectedHash
          (goRun env expectedSize expectedHash skip hasher size effects).finalHasher
          (goRun env expectedSize expectedHash skip hasher size effects).finalSize).1 := rfl
  have hTR : (goRun env expectedSize expectedHash skip hasher size effects).trace
      = effects ++ (dispatchRequest env expectedSize expectedHash skip hasher size).1
        ++ (streamChunks
            (dispatchRequest env expectedSize expectedHash skip hasher size).2.2.1
            (dispatchRequest env expectedSize expectedHash skip hasher size).2.2.2
            (dispatchRequest env expectedSize expectedHash skip hasher size).2.1).2.2
        ++ (finalizeDownload env expectedSize expectedHash
            (goRun env expectedSize expectedHash skip hasher size effects).finalHasher
            (goRun env expectedSize expectedHash skip hasher size effects).finalSize).2 := rfl
  obtain ⟨hf1, hf2, hf3⟩ := finalizeDownload_spec env expectedSize expectedHash
    (goRun env expectedSize expectedHash skip hasher size effects).finalHasher
    (goRun env expectedSize expectedHash skip hasher size effects).finalSize
  have hnorenpre : DownloadEvent.eff .renameDownloadToFile
      ∉ effects ++ (dispatchRequest env expectedSize expectedHash skip hasher size).1
        ++ (streamChunks
            (dispatchRequest env expectedSize expectedHash skip hasher size).2.2.1
            (dispatchRequest env expectedSize expectedHash skip hasher size).2.2.2
            (dispatchRequest env expectedSize expectedHash skip hasher size).2.1).2.2 := by
    intro hmem
    rcases List.mem_append.mp hmem with hmem | hmem
    · rcases List.mem_append.mp hmem with hmem | hmem
      · exact heffren hmem
      · exact dispatch_no_rename env expectedSize expectedHash skip hasher size hmem
    · rcases streamChunks_msgs _ _ _ _ hmem with ⟨p, hp, -, -⟩
      exact absurd hp (by simp)
  have hmsgspre : ∀ p, DownloadEvent.msg p
      ∈ effects ++ (dispatchRequest env expectedSize expectedHash skip hasher size).1
        ++ (streamChunks
            (dispatchRequest env expectedSize expectedHash skip hasher size).2.2.1
            (dispatchRequest env expectedSize expectedHash skip hasher size).2.2.2
            (dispatchRequest env expectedSize expectedHash skip hasher size).2.1).2.2 →
      p.complete = false := by
    intro p hmem
    rcases List.mem_append.mp hmem with hmem | hmem
    · rcases List.mem_append.mp hmem with hmem | hmem
      · exact heffmsg p hmem
      · exact dispatch_msgs_incomplete env expectedSize expectedHash skip hasher size
          p hmem
    · rcases streamChunks_msgs _ _ _ _ hmem with ⟨q, hq, -, hqc⟩
      injection hq with h
      rw [h]
      exact hqc
  refine ⟨?_, ?_, ?_⟩
  · intro expected bytes hEH hH hne
    have := hf1 expected bytes hEH hH hne
    refine ⟨by rw [hRES, this], ?_⟩
    rw [hTR, this]
    simpa using hnorenpre
  · intro expected n hES hS hok hne
    have := hf2 expected n hES hS hok hne
    refine ⟨by rw [hRES, this], ?_⟩
    rw [hTR, this]
    simpa using hnorenpre
  · intro hok hsz
    have := hf3 hok hsz
    refine ⟨by rw [hRES, this], ?_⟩
    refine ⟨effects ++ (dispatchRequest env expectedSize expectedHash skip hasher size).1
      ++ (streamChunks
          (dispatchRequest env expectedSize expectedHash skip hasher size).2.2.1
          (dispatchRequest env expectedSize expectedHash skip hasher size).2.2.2
          (dispatchRequest env expectedSize expectedHash skip hasher size).2.1).2.2,
      ?_, hmsgspre⟩
    rw [hTR, this]

/-- C1: for every `download_file` run that downloads data (the begin
state is not `Complete`) and reaches finalization, a supplied expected
hash differing from the computed digest yields the `Hash` error without
the rename of `P<suffix>.download` to `P<suffix>`; likewise a supplied
expected size differing from the byte counter yields the `Size` error
(the digest is checked first, per the order of the verification);
when both checks pass, the rename is performed and only afterwards is
the terminal complete progress message sent, every earlier message
being non-terminal. -/
theorem download_finalize_spec (env : DownloadEnv) (force : Bool)
    (expectedSize : Option Nat) (expectedHash : Option (List Nat))
    (hgo : force = true ∨ env.filePathLen = none) :
    (∀ expected bytes, expectedHash = some expected →
        (downloadFile env force expectedSize expectedHash).finalHasher = some bytes →
        env.hashFn bytes ≠ expected →
      (downloadFile env force expectedSize expectedHash).result
          = .error (.hash expected (env.hashFn bytes))
      ∧ DownloadEvent.eff .renameDownloadToFile
          ∉ (downloadFile env force expectedSize expectedHash).trace)
    ∧ (∀ expected n, expectedSize = some expected →
        (downloadFile env force expectedSize expectedHash).finalSize = some n →
        (∀ ehv bytes, expectedHash = some ehv →
          (downloadFile env force expectedSize expectedHash).finalHasher = some bytes →
          env.hashFn bytes = ehv) →
        n ≠ expected →
      (downloadFile env force expectedSize expectedHash).result
          = .error (.size expected n)
      ∧ DownloadEvent.eff .renameDownloadToFile
          ∉ (downloadFile env force expectedSize expectedHash).trace)
    ∧ ((∀ ehv bytes, expectedHash = some ehv →
          (downloadFile env force expectedSize expectedHash).finalHasher = some bytes →
          env.hashFn bytes = ehv) →
        (∀ esv n, expectedSize = some esv →
          (downloadFile env force expectedSize expectedHash).finalSize = some n →
          n = esv) →
      (downloadFile env force expectedSize expectedHash).result = .ok ()
      ∧ ∃ t, (downloadFile env force expectedSize expectedHash).trace
            = t ++ [DownloadEvent.eff .renameDownloadToFile,
                DownloadEvent.msg ⟨0, 0, 0, true⟩]
          ∧ ∀ p, DownloadEvent.msg p ∈ t → p.complete = false) := by
  have hG : ∃ skip hasher size effects,
      downloadFile env force expectedSize expectedHash
        = goRun env expectedSize expectedHash skip hasher size effects
      ∧ (∀ p, DownloadEvent.msg p ∈ effects → p.complete = false)
      ∧ DownloadEvent.eff .renameDownloadToFile ∉ effects := by
    by_cases hforce : force = true
    · subst hforce
      exact ⟨none, expectedHash.map fun _ => [], expectedSize.map fun _ => 0,
        [.eff .createDownload], by simp [downloadFile, beginDownload],
        by simp, by simp⟩
    · have hnone : env.filePathLen = none := hgo.resolve_left hforce
      have hf : force = false := by
        cases force
        · rfl
        · exact absurd rfl hforce
      subst hf
      cases hdl : env.downloadPathLen with
      | none =>
        exact ⟨none, expectedHash.map fun _ => [], expectedSize.map fun _ => 0,
          [.eff .createDownload],
          by simp [downloadFile, beginDownload, hnone, hdl], by simp, by simp⟩
      | some len =>
        exact ⟨some len, expectedHash.map fun _ => env.existingBytes,
          expectedSize.map fun _ => len, [],
          by simp [downloadFile, beginDownload, hnone, hdl], by simp, by simp⟩
  obtain ⟨skip, hasher, size, effects, hEq, hm, hr⟩ := hG
  rw [hEq]
  exact goRun_spec env expectedSize expectedHash skip hasher size effects hm hr

/-- A download environment for the witnesses: identity digest, no file
on disk, a plain response with one 3-byte chunk. -/
def sampleDownloadEnv : DownloadEnv :=
  { hashFn := fun bytes => bytes
    filePathLen := none
    downloadPathLen := none
    existingBytes := []
    plainResponse := ⟨200, [[1, 2, 3]]⟩
    rangeResponse := fun _ => ⟨200, []⟩ }

/-- C1 witness: a fresh download of a 3-byte body with expectations
supplied. -/
theorem download_finalize_spec_witness :
    ((false : Bool) = true ∨ sampleDownloadEnv.filePathLen = none)
    ∧ ((∀ ehv bytes, (some [1, 2, 3] : Option (List Nat)) = some ehv →
          (downloadFile sampleDownloadEnv false (some 3) (some [1, 2, 3])).finalHasher
            = some bytes →
          sampleDownloadEnv.hashFn bytes = ehv) →
        (∀ esv n, (some 3 : Option Nat) = some esv →
          (downloadFile sampleDownloadEnv false (some 3) (some [1, 2, 3])).finalSize
            = some n →
          n = esv) →
      (downloadFile sampleDownloadEnv false (some 3) (some [1, 2, 3])).result = .ok ()
      ∧ ∃ t, (downloadFile sampleDownloadEnv false (some 3) (some [1, 2, 3])).trace
            = t ++ [DownloadEvent.eff .renameDownloadToFile,
                DownloadEvent.msg ⟨0, 0, 0, true⟩]
          ∧ ∀ p, DownloadEvent.msg p ∈ t → p.complete = false) :=
  ⟨Or.inr rfl,
    (download_finalize_spec sampleDownloadEnv false (some 3) (some [1, 2, 3])
      (Or.inr rfl)).2.2⟩

/-- C2: when `start_download` resumes a partial download of `skip`
bytes and the response to the range GET has a status other than 206,
the trace is: the range request, exactly one progress message with all
byte fields equal to `-skip` and `complete = false` (it never recurs
later), the recreation of a fresh empty `P<suffix>.download`, and a
plain GET; the hasher and size counter entering the restarted stream
are reset, so they end at exactly the plain-response bytes and their
count. -/
theorem download_range_failed_spec (env : DownloadEnv)
    (expectedSize : Option Nat) (expectedHash : Option (List Nat)) (skip : Nat)
    (h1 : env.filePathLen = none)
    (h2 : env.downloadPathLen = some skip)
    (h3 : (env.rangeResponse skip).status ≠ 206) :
    (∃ rest, (downloadFile env false expectedSize expectedHash).trace
        = DownloadEvent.request (.range skip)
          :: DownloadEvent.msg ⟨-(skip : Int), -(skip : Int), -(skip : Int), false⟩
          :: DownloadEvent.eff .createDownload
          :: DownloadEvent.request .plain :: rest
      ∧ DownloadEvent.msg ⟨-(skip : Int), -(skip : Int), -(skip : Int), false⟩ ∉ rest)
    ∧ (downloadFile env false expectedSize expectedHash).finalHasher
        = expectedHash.map (fun _ => env.plainResponse.chunks.flatten)
    ∧ (downloadFile env false expectedSize expectedHash).finalSize
        = expectedSize.map (fun _ => env.plainResponse.chunks.flatten.length) := by
  have hEq : downloadFile env false expectedSize expectedHash
      = goRun env expectedSize expectedHash (some skip)
          (expectedHash.map fun _ => env.existingBytes)
          (expectedSize.map fun _ => skip) [] := by
    simp [downloadFile, beginDownload, h1, h2]
  have hd : dispatchRequest env expectedSize expectedHash (some skip)
        (expectedHash.map fun _ => env.existingBytes)
        (expectedSize.map fun _ => skip)
      = ([.request (.range skip),
          .msg ⟨-(skip : Int), -(skip : Int), -(skip : Int), false⟩,
          .eff .createDownload, .request .plain],
         env.plainResponse.chunks,
         expectedHash.map fun _ => [], expectedSize.map fun _ => 0) := by
    rw [dispatchRequest, if_neg h3]
  rw [hEq]
  have hFH : (goRun env expectedSize expectedHash (some skip)
        (expectedHash.map fun _ => env.existingBytes)
        (expectedSize.map fun _ => skip) []).finalHasher
      = expectedHash.map (fun _ => env.plainResponse.chunks.flatten) := by
    show (streamChunks _ _ _).1 = _
    rw [hd, streamChunks_hasher]
    cases expectedHash <;> simp
  have hFS : (goRun env expectedSize expectedHash (some skip)
        (expectedHash.map fun _ => env.existingBytes)
        (expectedSize.map fun _ => skip) []).finalSize
      = expectedSize.map (fun _ => env.plainResponse.chunks.flatten.length) := by
    show (streamChunks _ _ _).2.1 = _
    rw [hd, streamChunks_size]
    cases expectedSize <;> simp
  refine ⟨?_, hFH, hFS⟩
  have hTR : (goRun env expectedSize expectedHash (some skip)
        (expectedHash.map fun _ => env.existingBytes)
        (expectedSize.map fun _ => skip) []).trace
      = ([] ++ [DownloadEvent.request (.range skip),
          DownloadEvent.msg ⟨-(skip : Int), -(skip : Int), -(skip : Int), false⟩,
          DownloadEvent.eff .createDownload, DownloadEvent.request .plain])
        ++ (streamChunks (expectedHash.map fun _ => [])
            (expectedSize.map fun _ => 0) env.plainResponse.chunks).2.2
        ++ (finalizeDownload env expectedSize expectedHash
            (streamChunks (expectedHash.map fun _ => [])
              (expectedSize.map fun _ => 0) env.plainResponse.chunks).1
            (streamChunks (expectedHash.map fun _ => [])
              (expectedSize.map fun _ => 0) env.plainResponse.chunks).2.1).2 := by
    show ([] ++ (dispatchRequest env expectedSize expectedHash (some skip)
        (expectedHash.map fun _ => env.existingBytes)
        (expectedSize.map fun _ => skip)).1 ++ _ ++ _) = _
    rw [hd]
  refine ⟨(streamChunks (expectedHash.map fun _ => [])
        (expectedSize.map fun _ => 0) env.plainResponse.chunks).2.2
      ++ (finalizeDownload env expectedSize expectedHash
          (streamChunks (expectedHash.map fun _ => [])
            (expectedSize.map fun _ => 0) env.plainResponse.chunks).1
          (streamChunks (expectedHash.map fun _ => [])
            (expectedSize.map fun _ => 0) env.plainResponse.chunks).2.1).2, ?_, ?_⟩
  · rw [hTR]
    simp
  · intro hmem
    rcases List.mem_append.mp hmem with hmem | hmem
    · rcases streamChunks_msgs _ _ _ _ hmem with ⟨p, hp, hpos, -⟩
      injection hp with h
      rw [← h] at hpos
      simp only at hpos
      have hskip : (0 : Int) ≤ (skip : Int) := Int.natCast_nonneg skip
      omega
    · rcases finalizeDownload_events env expectedSize expectedHash
          (streamChunks (expectedHash.map fun _ => [])
            (expectedSize.map fun _ => 0) env.plainResponse.chunks).1
          (streamChunks (expectedHash.map fun _ => [])
            (expectedSize.map fun _ => 0) env.plainResponse.chunks).2.1
        with hF | hF
      · rw [hF] at hmem
        simp at hmem
      · rw [hF] at hmem
        simp only [List.mem_cons, List.not_mem_nil, or_false] at hmem
        rcases hmem with h | h
        · exact absurd h (by simp)
        · exact absurd h (by simp)

/-- A resume environment for the C2 witness: three bytes already on
disk, the server rejects the range request with a 200. -/
def sampleResumeEnv : DownloadEnv :=
  { hashFn := fun bytes => bytes
    filePathLen := none
    downloadPathLen := some 3
    existingBytes := [9, 9, 9]
    plainResponse := ⟨200, [[1, 2, 3, 4]]⟩
    rangeResponse := fun _ => ⟨200, [[4]]⟩ }

/-- C2 witness: the 200 response to `Range: bytes=3-` produces the
`-3` message, the truncating re-create, the plain GET, and counters
over the full plain body. -/
theorem download_range_failed_spec_witness :
    sampleResumeEnv.filePathLen = none
    ∧ sampleResumeEnv.downloadPathLen = some 3
    ∧ (sampleResumeEnv.rangeResponse 3).status ≠ 206
    ∧ ((∃ rest, (downloadFile sampleResumeEnv false (some 4) (some [1, 2, 3, 4])).trace
          = DownloadEvent.request (.range 3)
            :: DownloadEvent.msg ⟨-(3 : Nat), -(3 : Nat), -(3 : Nat), false⟩
            :: DownloadEvent.eff .createDownload
            :: DownloadEvent.request .plain :: rest
        ∧ DownloadEvent.msg ⟨-(3 : Nat), -(3 : Nat), -(3 : Nat), false⟩ ∉ rest)
      ∧ (downloadFile sampleResumeEnv false (some 4) (some [1, 2, 3, 4])).finalHasher
          = (some [1, 2, 3, 4] : Option (List Nat)).map
              (fun _ => sampleResumeEnv.plainResponse.chunks.flatten)
      ∧ (downloadFile sampleResumeEnv false (some 4) (some [1, 2, 3, 4])).finalSize
          = (some 4 : Option Nat).map
              (fun _ => sampleResumeEnv.plainResponse.chunks.flatten.length)) :=
  ⟨rfl, rfl, by decide,
    download_range_failed_spec sampleResumeEnv (some 4) (some [1, 2, 3, 4]) 3
      rfl rfl (by decide)⟩

/-- C4: with `force` off and a regular file already at `P<suffix>`, the
run sends a single terminal message whose three byte fields equal the
expected size (or the file length when no expectation was supplied) and
returns success — the trace holds no request, creation, rename or
deletion. -/
theorem download_skip_existing_spec (env : DownloadEnv)
    (expectedSize : Option Nat) (expectedHash : Option (List Nat)) (len : Nat)
    (h : env.filePathLen = some len) :
    downloadFile env false expectedSize expectedHash =
      { result := .ok ()
        trace := [DownloadEvent.msg ⟨((expectedSize.getD len : Nat) : Int),
          ((expectedSize.getD len : Nat) : Int),
          ((expectedSize.getD len : Nat) : Int), true⟩]
        streamed := false
        finalHasher := none
        finalSize := none } := by
  simp [downloadFile, beginDownload, h]

/-- An environment for the C4 witness: a complete 10-byte artifact is
already on disk. -/
def sampleCompleteEnv : DownloadEnv :=
  { hashFn := fun bytes => bytes
    filePathLen := some 10
    downloadPathLen := none
    existingBytes := []
    plainResponse := ⟨200, [[1]]⟩
    rangeResponse := fun _ => ⟨200, []⟩ }

/-- C4 witness: with no expected size supplied the terminal message
carries the on-disk length 10 and nothing else happens. -/
theorem download_skip_existing_spec_witness :
    sampleCompleteEnv.filePathLen = some 10
    ∧ downloadFile sampleCompleteEnv false none none =
      { result := .ok ()
        trace := [DownloadEvent.msg ⟨(((none : Option Nat).getD 10 : Nat) : Int),
          (((none : Option Nat).getD 10 : Nat) : Int),
          (((none : Option Nat).getD 10 : Nat) : Int), true⟩]
        streamed := false
        finalHasher := none
        finalSize := none } :=
  ⟨rfl, download_skip_existing_spec sampleCompleteEnv none none 10 rfl⟩

end Undr
